import Mathlib

/-!
Shallow embedding of `backup.py` from samuelkadolph/macos-chat-backup.

The script archives macOS Messages: for every day since the last checkpoint it
renders each conversation's messages into a per-day text file, copies the
referenced attachments next to it, writes the `lastrun` checkpoint and asks git
for one commit per day, pushing once at the end.

The embedding models:
  * the Python string helpers the renderer relies on (`str.splitlines`,
    `str.ljust`, `str.rjust`, `str.replace` with a one-character pattern);
  * the data classes `Attachment`, `Chat`, `Message` with their methods
    (`dst_name`, `__str__`, `dir_name`, `sender`, `render`,
    `_convert_from_timestamp`, `_load`, `for_day`);
  * the `defaultdict(list)` grouping idiom used both in `Message.for_day`
    (grouping joined rows by message ROWID) and in the main loop (grouping
    messages by chat id): keys in first-occurrence order, each key carrying its
    rows in arrival order;
  * the main loop (lines 238-279) as a trace of effect events, with the
    fallible points (a `None` text reaching `str.splitlines`, and
    `shutil.copyfile` raising) made explicit;
  * the filesystem effect of the `open(path, "w")` day-file writes, as a map
    from paths to contents, for the idempotence property.

Timestamp rendering (`datetime.strftime`) and day formatting are kept abstract
as function parameters, since their output depends on the local timezone and
format string; everything the script itself computes is embedded concretely.
-/

namespace MacosChatBackup

/-- Python `s.ljust(width)`: pad `s` on the right with spaces up to `width`. -/
def pyLjust (s : String) (width : Nat) : String :=
  s ++ String.mk (List.replicate (width - s.length) ' ')

/-- Python `s.rjust(width)`: pad `s` on the left with spaces up to `width`. -/
def pyRjust (s : String) (width : Nat) : String :=
  String.mk (List.replicate (width - s.length) ' ') ++ s

/-- The characters Python `str.splitlines` treats as line boundaries. -/
def isPyLineBreak (c : Char) : Bool :=
  c == '\n' || c == '\r' || c == Char.ofNat 0x0b || c == Char.ofNat 0x0c ||
  c == Char.ofNat 0x1c || c == Char.ofNat 0x1d || c == Char.ofNat 0x1e ||
  c == Char.ofNat 0x85 || c == Char.ofNat 0x2028 || c == Char.ofNat 0x2029

/-- Worker for `pySplitlines`; `acc` holds the current line reversed. -/
def pySplitlinesAux : List Char → List Char → List String
  | [], acc => if acc.isEmpty then [] else [String.mk acc.reverse]
  | '\r' :: '\n' :: rest, acc => String.mk acc.reverse :: pySplitlinesAux rest []
  | c :: rest, acc =>
      if isPyLineBreak c then String.mk acc.reverse :: pySplitlinesAux rest []
      else pySplitlinesAux rest (c :: acc)

/-- Python `s.splitlines()`: split at line boundaries, no trailing empty line. -/
def pySplitlines (s : String) : List String :=
  pySplitlinesAux s.data []

/-- U+FFFC, the object-replacement placeholder the Messages store puts in
message text where an attachment sits. -/
def objectReplacementChar : Char := Char.ofNat 0xfffc

/-- Python `text.replace(u"￼", "")`: drop every placeholder character. -/
def stripObjectReplacement (s : String) : String :=
  String.mk (s.data.filter (fun c => !(c == objectReplacementChar)))

/-- `class Attachment` (backup.py lines 50-66): a row from the `attachment`
table joined to a message. -/
structure Attachment where
  id : Int
  shortname : String
  filename : String
deriving DecidableEq

/-- `Attachment.dst_name` (line 62): `"%s-%s" % (self.id, self.shortname)`. -/
def Attachment.dst_name (a : Attachment) : String :=
  toString a.id ++ "-" ++ a.shortname

/-- `Attachment.__str__` (line 59): `"[%s]" % (self.dst_name())`. -/
def Attachment.str (a : Attachment) : String :=
  "[" ++ a.dst_name ++ "]"

/-- `Attachment.src_name` (line 65): the source path of the attachment.
`Path.expanduser` resolution is external to the model; the path string itself
is kept. -/
def Attachment.src_name (a : Attachment) : String :=
  a.filename

/-- `class Chat` (lines 68-100): a chat id with its participants, the mapping
from handle ROWID to handle id in insertion order. -/
structure Chat where
  id : Int
  participants : List (Int × String)
deriving DecidableEq

/-- `Chat.dir_name` (line 99): `",".join(self.participants.values())`. -/
def Chat.dir_name (c : Chat) : String :=
  ",".intercalate (c.participants.map Prod.snd)

/-- `Message._convert_from_timestamp` (lines 133-135): the instant, in seconds
since the Unix epoch, of `datetime.fromtimestamp(value / 1000000000 +
978307200)`.  The store counts nanoseconds from the Apple reference date, which
sits 978307200 seconds after the Unix epoch. -/
def convert_from_timestamp (value : Int) : ℚ :=
  (value : ℚ) / 1000000000 + 978307200

/-- `class Message` (lines 102-188).  The timestamp is the converted instant in
Unix seconds; `text` is `Option String` because the `message.text` column is
nullable.  Sender identities are the display strings from the joined rows. -/
structure Message where
  timestamp : ℚ
  chat_id : Int
  handle_id : String
  caller_id : String
  is_from_me : Bool
  text : Option String
  attachments : List Attachment

/-- `Message.sender` (lines 184-188). -/
def Message.sender (m : Message) : String :=
  if m.is_from_me then m.caller_id else m.handle_id

/-- `Message.render` (lines 170-182), parameterised over the already-applied
`strftime` of the timestamp format (`fmt`).  A `None` text reaches
`self.text.splitlines()` and raises `AttributeError`, modelled as `none`. -/
def Message.render (fmt : ℚ → String) (m : Message) (max_sender_length : Nat) :
    Option String :=
  let attachments := " ".intercalate (m.attachments.map Attachment.str)
  match m.text with
  | none => none
  | some t =>
    let text := String.intercalate (pyLjust "\n" (max_sender_length + 23))
      (pySplitlines t)
    let text :=
      if m.attachments.isEmpty then text
      else
        let text := stripObjectReplacement text
        if text.isEmpty then attachments else text ++ " " ++ attachments
    some (fmt m.timestamp ++ " " ++ pyRjust m.sender max_sender_length ++ ": " ++ text)

/-- The `defaultdict(list)` grouping idiom (`Message.for_day` lines 127-131 and
the main loop lines 242-244): iterate the list appending each element to the
bucket of its key; dict iteration then yields the keys in first-occurrence
order, each with its elements in arrival order. -/
def groupByKey {α β : Type} [DecidableEq β] (key : α → β) : List α → List (β × List α)
  | [] => []
  | a :: xs =>
      (key a, a :: xs.filter (fun b => decide (key b = key a))) ::
        groupByKey key (xs.filter (fun b => !(decide (key b = key a))))
termination_by xs => xs.length
decreasing_by
  simp only [List.length_cons]
  exact Nat.lt_succ_of_le (List.length_filter_le _ _)

/-- One row of the `Message.FOR_DAY` query (lines 107-114): message ROWID, raw
date, chat id, the two sender identities, `is_from_me`, nullable text, and the
optional joined attachment columns (all three null or all three present, since
they come from the same `attachment` row of the `LEFT JOIN`). -/
structure Row where
  rowid : Int
  date : Int
  chat_id : Int
  handle_id : String
  caller_id : String
  is_from_me : Int
  text : Option String
  att : Option Attachment

/-- `Message._load` (lines 142-156): build one `Message` from the group of rows
sharing a ROWID; fields come from the first row, the attachment list from the
non-null attachment columns.  (Groups produced by `for_day` are never empty;
the `[]` case is unreachable.) -/
def Message.load : List Row → Message
  | [] => ⟨0, 0, "", "", false, none, []⟩
  | r :: rest =>
      ⟨convert_from_timestamp r.date, r.chat_id, r.handle_id, r.caller_id,
        r.is_from_me == 1, r.text, (r :: rest).filterMap Row.att⟩

/-- `Message.for_day` (lines 121-131): group the query rows by message ROWID
(first-occurrence order, which is ascending date order because the query sorts
by date) and load one `Message` per group. -/
def Message.for_day (rows : List Row) : List Message :=
  (groupByKey Row.rowid rows).map (fun p => Message.load p.2)

/-- The configuration the main loop consumes (lines 209-214): attachment export
on/off, git on/off, and the two formatters.  `fmt` is `strftime` with the
timestamp format already applied to the converted instant; `day_fmt` formats a
day (days are modelled as integers, `+ 1` being the next day). -/
structure Config where
  attachments : Bool
  use_git : Bool
  fmt : ℚ → String
  day_fmt : Int → String

/-- One externally visible effect of the main loop (lines 238-279):
a rendered line written to a day file, an attachment copy
(`shutil.copyfile(src, dst)`), a `git add`, the checkpoint write
(`lastrun` set to the ISO date of the given day), a
`git commit --allow-empty --message msg`, or the final `git push`. -/
inductive Event where
  | writeLine (path : String) (data : String)
  | copyAttachment (src : String) (dst : String)
  | gitAdd (path : String)
  | writeCheckpoint (day : Int)
  | gitCommit (message : String) (allowEmpty : Bool)
  | gitPush
deriving DecidableEq

/-- Destination path of an attachment copy (line 261):
`chat_path / attachment.dst_name()`. -/
def dstPath (chat_path : String) (a : Attachment) : String :=
  chat_path ++ "/" ++ a.dst_name

/-- Lines 259-266: copy each attachment of one message (the `attachments` flag
has already been consulted by the caller) and stage it when git is on.
`copyOk` says whether `shutil.copyfile` succeeds for an attachment; a failing
copy raises, so processing stops there with the events emitted so far and the
failure flag. -/
def processAtts (cfg : Config) (copyOk : Attachment → Bool) (chat_path : String) :
    List Attachment → List Event × Bool
  | [] => ([], true)
  | a :: rest =>
      if copyOk a then
        let evs := Event.copyAttachment a.src_name (dstPath chat_path a) ::
          (if cfg.use_git then [Event.gitAdd (dstPath chat_path a)] else [])
        let r := processAtts cfg copyOk chat_path rest
        (evs ++ r.1, r.2)
      else ([], false)

/-- Lines 255-266: the body of the `open(messages_path, "w")` block — write one
line per message and, when attachment export is on, copy its attachments
in-line.  A `None` text makes `render` raise, stopping processing there. -/
def processMsgs (cfg : Config) (copyOk : Attachment → Bool)
    (chat_path messages_path : String) (w : Nat) :
    List Message → List Event × Bool
  | [] => ([], true)
  | m :: rest =>
      match m.render cfg.fmt w with
      | none => ([], false)
      | some line =>
        let le := Event.writeLine messages_path (line ++ "\n")
        let ar := if cfg.attachments then processAtts cfg copyOk chat_path m.attachments
          else ([], true)
        if ar.2 then
          let r := processMsgs cfg copyOk chat_path messages_path w rest
          (le :: ar.1 ++ r.1, r.2)
        else (le :: ar.1, false)

/-- `max(len(m.sender()) for m in messages)` (line 249). -/
def maxSenderLength (msgs : List Message) : Nat :=
  msgs.foldl (fun acc m => max acc m.sender.length) 0

/-- Lines 246-269 for a single chat: write the day file, copy attachments, and
stage the day file when git is on.  (Directory creation, line 252-253, has no
observable content and is elided from the trace.) -/
def processChat (cfg : Config) (copyOk : Attachment → Bool) (chats : Int → Chat)
    (day_str : String) (chat_id : Int) (messages : List Message) : List Event × Bool :=
  let chat_path := (chats chat_id).dir_name
  let messages_path := chat_path ++ "/" ++ day_str ++ ".txt"
  let r := processMsgs cfg copyOk chat_path messages_path (maxSenderLength messages) messages
  if r.2 then
    (r.1 ++ (if cfg.use_git then [Event.gitAdd messages_path] else []), true)
  else r

/-- The `for chat_id in messages_by_chat` loop (lines 246-269) over the grouped
chats; a raised exception in one chat stops the whole loop. -/
def processChats (cfg : Config) (copyOk : Attachment → Bool) (chats : Int → Chat)
    (day_str : String) : List (Int × List Message) → List Event × Bool
  | [] => ([], true)
  | (cid, ms) :: rest =>
      let r := processChat cfg copyOk chats day_str cid ms
      if r.2 then
        let rr := processChats cfg copyOk chats day_str rest
        (r.1 ++ rr.1, rr.2)
      else r

/-- One iteration of the day loop (lines 238-276): group the day's messages by
chat, process every chat, then write the checkpoint `day + 1` and, when git is
on, stage `lastrun` and commit with `--allow-empty` and the message
`f"Chat Archive for {day_str}"`. -/
def processDay (cfg : Config) (copyOk : Attachment → Bool) (chats : Int → Chat)
    (day : Int) (msgs : List Message) : List Event × Bool :=
  let day_str := cfg.day_fmt day
  let r := processChats cfg copyOk chats day_str (groupByKey Message.chat_id msgs)
  if r.2 then
    (r.1 ++ Event.writeCheckpoint (day + 1) ::
      (if cfg.use_git then
        [Event.gitAdd "lastrun",
         Event.gitCommit ("Chat Archive for " ++ day_str) true]
       else []), true)
  else r

/-- The whole day loop: process `n` consecutive days starting at `start`
(`for d in range(int((date.today() - lastrun_at).days))`, line 238), stopping
at the first failing day.  `store day` is the result of
`Message.for_day(cursor, day)`. -/
def runDays (cfg : Config) (copyOk : Attachment → Bool) (chats : Int → Chat)
    (store : Int → List Message) (start : Int) : Nat → List Event × Bool
  | 0 => ([], true)
  | n + 1 =>
      let r := processDay cfg copyOk chats start (store start)
      if r.2 then
        let rr := runDays cfg copyOk chats store (start + 1) n
        (r.1 ++ rr.1, rr.2)
      else r

/-- Python truthiness of the `(returncode, output)` pair returned by `git()`
(lines 194-197): a 2-tuple is always truthy, whatever its contents. -/
def pyTruthyPair (_ : Int × String) : Bool := true

/-- Line 278: `if use_git and git(path, "remote"):` — the final-push condition,
with `remote` the `(returncode, output)` of `git remote`. -/
def finalPushRequested (use_git : Bool) (remote : Int × String) : Bool :=
  use_git && pyTruthyPair remote

/-- Lines 238-279: the day loop followed by the final push decision.  When the
loop raised, the push line is never reached. -/
def runAll (cfg : Config) (copyOk : Attachment → Bool) (chats : Int → Chat)
    (store : Int → List Message) (start : Int) (n : Nat)
    (remote : Int × String) : List Event × Bool :=
  let r := runDays cfg copyOk chats store start n
  if r.2 then
    (r.1 ++ (if finalPushRequested cfg.use_git remote then [Event.gitPush] else []), true)
  else r

/-- The checkpoint values written in a trace, in order. -/
def checkpointWrites (evs : List Event) : List Int :=
  evs.filterMap (fun e => match e with
    | Event.writeCheckpoint d => some d
    | _ => none)

/-- The attachment copies `(src, dst)` performed in a trace, in order. -/
def copiesOf (evs : List Event) : List (String × String) :=
  evs.filterMap (fun e => match e with
    | Event.copyAttachment s d => some (s, d)
    | _ => none)

/-- The day-file line writes `(path, data)` performed in a trace, in order. -/
def lineWrites (evs : List Event) : List (String × String) :=
  evs.filterMap (fun e => match e with
    | Event.writeLine p s => some (p, s)
    | _ => none)

/-- Whether an event is the checkpoint write. -/
def Event.isCheckpointWrite : Event → Bool
  | Event.writeCheckpoint _ => true
  | _ => false

/-- Whether an event is a commit request. -/
def Event.isCommit : Event → Bool
  | Event.gitCommit _ _ => true
  | _ => false

/-- Whether an event is one a chat body can emit: a line write, an attachment
copy, or a `git add` — never a checkpoint write, commit or push. -/
def Event.isBody : Event → Bool
  | Event.writeLine _ _ => true
  | Event.copyAttachment _ _ => true
  | Event.gitAdd _ => true
  | _ => false

/-! ### Filesystem view of the day-file writes

`open(messages_path, "w")` truncates, so the write of one chat's day file
replaces that path's content with a pure function of the day's messages.  The
filesystem is a map from paths to contents; a run of the per-day loop is the
sequence of such overwrites. -/

/-- A filesystem: path to content, `none` when absent. -/
def FS : Type := String → Option String

/-- Writing a file in `"w"` mode: truncate and replace. -/
def fsWrite (fs : FS) (path content : String) : FS :=
  fun x => if x = path then some content else fs x

/-- The full content of one chat's day file (lines 255-257): every rendered
line followed by a newline; `none` when a render raises. -/
def chatFileContent (fmt : ℚ → String) (w : Nat) : List Message → Option String
  | [] => some ""
  | m :: rest =>
      match m.render fmt w, chatFileContent fmt w rest with
      | some line, some r => some (line ++ "\n" ++ r)
      | _, _ => none

/-- The day-file writes of one day (lines 246-257), seen on the filesystem:
one truncating write per chat group. -/
def writeChatsFS (cfg : Config) (chats : Int → Chat) (day_str : String) :
    List (Int × List Message) → FS → Option FS
  | [], fs => some fs
  | (cid, ms) :: rest, fs =>
      match chatFileContent cfg.fmt (maxSenderLength ms) ms with
      | none => none
      | some content =>
          writeChatsFS cfg chats day_str rest
            (fsWrite fs ((chats cid).dir_name ++ "/" ++ day_str ++ ".txt") content)

/-- The filesystem effect of processing one day's message files. -/
def processDayFS (cfg : Config) (chats : Int → Chat) (day : Int)
    (msgs : List Message) (fs : FS) : Option FS :=
  writeChatsFS cfg chats (cfg.day_fmt day) (groupByKey Message.chat_id msgs) fs

/-- The day-file writes of one day as a list of `(path, content)` pairs
(`none` when a render raises): the data `writeChatsFS` applies to the
filesystem. -/
def planWrites (cfg : Config) (chats : Int → Chat) (day_str : String) :
    List (Int × List Message) → Option (List (String × String))
  | [] => some []
  | (cid, ms) :: rest =>
      match chatFileContent cfg.fmt (maxSenderLength ms) ms,
        planWrites cfg chats day_str rest with
      | some content, some ws =>
          some (((chats cid).dir_name ++ "/" ++ day_str ++ ".txt", content) :: ws)
      | _, _ => none

/-- Apply a list of truncating writes to a filesystem, in order. -/
def applyWrites : List (String × String) → FS → FS
  | [], fs => fs
  | (p, c) :: ws, fs => applyWrites ws (fsWrite fs p c)

/-- The sequence of attachment copies one day would attempt, in processing
order (chat groups in first-occurrence order, messages in order, attachments
in order), each paired with its chat directory. -/
def attPlan (chats : Int → Chat) (msgs : List Message) : List (Attachment × String) :=
  (groupByKey Message.chat_id msgs).flatMap
    (fun p => (p.2.flatMap Message.attachments).map
      (fun a => (a, (chats p.1).dir_name)))

/-- The ordering property claimed of a day's trace: every checkpoint write
comes after every snapshot commit (the checkpoint is advanced "only after the
snapshot has been produced"). -/
def checkpointOnlyAfterCommit (evs : List Event) : Prop :=
  ∀ i, i < evs.length → ∀ j, j < evs.length →
    (evs.getD i Event.gitPush).isCheckpointWrite = true →
    (evs.getD j Event.gitPush).isCommit = true → j < i

/-! ### Concrete instances used to exercise the theorems -/

/-- A configuration with attachments and git on, and trivial formatters. -/
def cfgC : Config := ⟨true, true, fun _ => "T", fun _ => "D"⟩

/-- A chat table mapping every id to a one-participant chat named `alice`. -/
def chatsC : Int → Chat := fun _ => ⟨0, [(1, "alice")]⟩

/-- A copy oracle under which every attachment copy succeeds. -/
def okAll : Attachment → Bool := fun _ => true

/-- A copy oracle under which every attachment copy fails. -/
def okNone : Attachment → Bool := fun _ => false

/-- A plain one-line outgoing message with no attachments. -/
def mW : Message := ⟨5, 0, "alice", "me", true, some "hi", []⟩

/-- A concrete attachment. -/
def aW : Attachment := ⟨7, "x.jpg", "/tmp/x.jpg"⟩

/-- The message `mW` carrying the attachment `aW`. -/
def mA : Message := ⟨5, 0, "alice", "me", true, some "hi", [aW]⟩

/-- A message whose text column is NULL. -/
def mNull : Message := ⟨0, 0, "alice", "me", false, none, []⟩

/-- The empty filesystem. -/
def fsW0 : FS := fun _ => none

/-- The filesystem after archiving `[mW]` for day `0` under `cfgC`. -/
def fsW1 : FS := fsWrite fsW0 "alice/D.txt" "T me: hi\n"

/-- Two query rows with ascending dates, distinct message ROWIDs, same chat. -/
def rowsC : List Row :=
  [⟨1, 10, 0, "alice", "me", 0, some "a", none⟩,
   ⟨2, 20, 0, "alice", "me", 1, some "b", none⟩]

/-- A store with `[mA]` on every day. -/
def storeA : Int → List Message := fun _ => [mA]

/-- A store with no messages on any day. -/
def storeE : Int → List Message := fun _ => []

/-! ## Lemmas about the grouping idiom -/

theorem groupByKey_nil {α β : Type} [DecidableEq β] (key : α → β) :
    groupByKey key ([] : List α) = [] := by
  simp [groupByKey]

theorem groupByKey_cons {α β : Type} [DecidableEq β] (key : α → β) (a : α) (xs : List α) :
    groupByKey key (a :: xs) =
      (key a, a :: xs.filter (fun b => decide (key b = key a))) ::
        groupByKey key (xs.filter (fun b => !(decide (key b = key a)))) := by
  rw [groupByKey]

/-- Every group is nonempty, is a subsequence of the input, and holds exactly
elements of its key. -/
theorem groupByKey_mem {α β : Type} [DecidableEq β] (key : α → β) (xs : List α) :
    ∀ p ∈ groupByKey key xs, p.2 ≠ [] ∧ p.2.Sublist xs ∧ ∀ a ∈ p.2, key a = p.1 := by
  suffices h : ∀ (n : Nat) (xs : List α), xs.length ≤ n →
      ∀ p ∈ groupByKey key xs, p.2 ≠ [] ∧ p.2.Sublist xs ∧ ∀ a ∈ p.2, key a = p.1 by
    exact h xs.length xs le_rfl
  intro n
  induction n with
  | zero =>
    intro xs hlen p hp
    have hx : xs = [] := List.length_eq_zero.mp (Nat.le_zero.mp hlen)
    rw [hx, groupByKey_nil] at hp
    exact absurd hp (List.not_mem_nil p)
  | succ n ih =>
    intro xs hlen p hp
    match xs with
    | [] =>
      rw [groupByKey_nil] at hp
      exact absurd hp (List.not_mem_nil p)
    | a :: l =>
      rw [groupByKey_cons] at hp
      rcases List.mem_cons.mp hp with hp | hp
      · subst hp
        refine ⟨by simp, List.Sublist.cons₂ a (List.filter_sublist l), ?_⟩
        intro b hb
        rcases List.mem_cons.mp hb with hb | hb
        · rw [hb]
        · exact of_decide_eq_true (List.mem_filter.mp hb).2
      · have hlen' : (l.filter (fun b => !(decide (key b = key a)))).length ≤ n := by
          have := List.length_filter_le (fun b => !(decide (key b = key a))) l
          have hl : l.length ≤ n := by simpa using Nat.le_of_succ_le_succ hlen
          omega
        obtain ⟨h1, h2, h3⟩ := ih _ hlen' p hp
        exact ⟨h1, h2.trans ((List.filter_sublist l).cons a), h3⟩

/-- When the input is pairwise ordered, the first elements of the groups, in
group order, are pairwise ordered as well. -/
theorem groupByKey_pairwise_headD {α β : Type} [DecidableEq β] (key : α → β)
    (R : α → α → Prop) (d : α) (xs : List α) (hxs : xs.Pairwise R) :
    (groupByKey key xs).Pairwise (fun p q => R (p.2.headD d) (q.2.headD d)) := by
  suffices h : ∀ (n : Nat) (xs : List α), xs.length ≤ n → xs.Pairwise R →
      (groupByKey key xs).Pairwise (fun p q => R (p.2.headD d) (q.2.headD d)) by
    exact h xs.length xs le_rfl hxs
  intro n
  induction n with
  | zero =>
    intro xs hlen _
    have hx : xs = [] := List.length_eq_zero.mp (Nat.le_zero.mp hlen)
    rw [hx, groupByKey_nil]
    exact List.Pairwise.nil
  | succ n ih =>
    intro xs hlen hxs
    match xs with
    | [] =>
      rw [groupByKey_nil]
      exact List.Pairwise.nil
    | a :: l =>
      rw [groupByKey_cons]
      obtain ⟨ha, hl⟩ := List.pairwise_cons.mp hxs
      have hlen' : (l.filter (fun b => !(decide (key b = key a)))).length ≤ n := by
        have := List.length_filter_le (fun b => !(decide (key b = key a))) l
        have : l.length ≤ n := by simpa using Nat.le_of_succ_le_succ hlen
        omega
      refine List.pairwise_cons.mpr ⟨?_, ih _ hlen' (hl.sublist (List.filter_sublist l))⟩
      intro q hq
      obtain ⟨hq1, hq2, _⟩ := groupByKey_mem key _ q hq
      have hhd : q.2.headD d ∈ q.2 := by
        match hq2' : q.2 with
        | [] => exact absurd hq2' hq1
        | b :: t => simp
      have : q.2.headD d ∈ l := (List.filter_sublist l).subset (hq2.subset hhd)
      simpa using ha _ this

/-! ## C7: timestamp conversion of the raw value 0 -/

/-- C7: a raw store timestamp of 0 nanoseconds since the store epoch converts
to the instant 978307200 seconds after the Unix epoch. -/
theorem timestamp_zero_reference : convert_from_timestamp 0 = 978307200 := by
  norm_num [convert_from_timestamp]

/-! ## C8: attachment token formatting -/

/-- C8: a message with empty text and the single attachment
`(id = 12, shortname = "IMG_0001.JPG")` renders with trailing content exactly
`[12-IMG_0001.JPG]` after the `sender: ` column, and the attachment's
destination file name is exactly `12-IMG_0001.JPG`. -/
theorem attachment_token_format (fmt : ℚ → String) (ts : ℚ) (cid : Int)
    (hid cid' fn : String) (b : Bool) (w : Nat) :
    Message.render fmt ⟨ts, cid, hid, cid', b, some "", [⟨12, "IMG_0001.JPG", fn⟩]⟩ w =
      some (fmt ts ++ " " ++
        pyRjust (Message.sender ⟨ts, cid, hid, cid', b, some "", [⟨12, "IMG_0001.JPG", fn⟩]⟩) w ++
        ": " ++ "[12-IMG_0001.JPG]") ∧
    Attachment.dst_name ⟨12, "IMG_0001.JPG", fn⟩ = "12-IMG_0001.JPG" :=
  ⟨rfl, rfl⟩

/-! ## C9: render on a NULL text body -/

/-- C9: `render` is not total over the data model: on a message whose text
column is NULL, `self.text.splitlines()` raises (`none` in the model), so no
output line is produced.  Concrete failing evaluation. -/
theorem render_null_text_fails : Message.render (fun _ => "T") mNull 5 = none :=
  rfl

/-! ## C2: the final push condition -/

/-- C2: the final-push condition is `use_git and git(path, "remote")`, and the
`(returncode, output)` tuple returned by `git` is always truthy in Python, so
with git enabled and `git remote` reporting no remote at all (exit 0, empty
output) one push is still requested. -/
theorem push_requested_without_remote :
    finalPushRequested true (0, "") = true ∧
    (runAll cfgC okAll chatsC storeE 0 0 (0, "")).1 = [Event.gitPush] := by
  constructor
  · rfl
  · simp [runAll, runDays, finalPushRequested, pyTruthyPair, cfgC, okAll]

/-! ## C3: a day with zero messages -/

/-- C3: a day with zero messages performs no file writes and no attachment
copies, yet still writes the checkpoint `day + 1` and still requests exactly
one `--allow-empty` commit labeled with the day's formatted date. -/
theorem empty_day_trace (cfg : Config) (copyOk : Attachment → Bool)
    (chats : Int → Chat) (day : Int) (hg : cfg.use_git = true) :
    processDay cfg copyOk chats day [] =
      ([Event.writeCheckpoint (day + 1), Event.gitAdd "lastrun",
        Event.gitCommit ("Chat Archive for " ++ cfg.day_fmt day) true], true) := by
  simp [processDay, processChats, groupByKey_nil, hg]

/-- Exercises `empty_day_trace` on a concrete configuration. -/
theorem empty_day_trace_witness :
    processDay cfgC okAll chatsC 0 [] =
      ([Event.writeCheckpoint (0 + 1), Event.gitAdd "lastrun",
        Event.gitCommit ("Chat Archive for " ++ cfgC.day_fmt 0) true], true) :=
  empty_day_trace cfgC okAll chatsC 0 rfl

/-! ## C6: ordering within a day file -/

/-- `Message._load` takes the timestamp from the group's first row. -/
theorem Message.load_timestamp (l : List Row) (hl : l ≠ []) (d : Row) :
    (Message.load l).timestamp = convert_from_timestamp ((l.headD d).date) := by
  match l with
  | [] => exact absurd rfl hl
  | r :: t => rfl

/-- The store-timestamp conversion is monotone. -/
theorem convert_from_timestamp_mono {a b : Int} (h : a ≤ b) :
    convert_from_timestamp a ≤ convert_from_timestamp b := by
  unfold convert_from_timestamp
  have hab : (a : ℚ) ≤ (b : ℚ) := by exact_mod_cast h
  gcongr

/-- C6: when the query rows arrive sorted by raw date (the query's
`ORDER BY message.date`), the messages `for_day` builds are in non-decreasing
timestamp order, and so is each per-chat group written to a day file. -/
theorem day_file_timestamps_sorted (rows : List Row)
    (hs : rows.Pairwise (fun r1 r2 => r1.date ≤ r2.date)) :
    ((Message.for_day rows).map Message.timestamp).Pairwise (· ≤ ·) ∧
    ∀ p ∈ groupByKey Message.chat_id (Message.for_day rows),
      (p.2.map Message.timestamp).Pairwise (· ≤ ·) := by
  have hmsg : (Message.for_day rows).Pairwise
      (fun m1 m2 => m1.timestamp ≤ m2.timestamp) := by
    unfold Message.for_day
    rw [List.pairwise_map]
    have hp := groupByKey_pairwise_headD Row.rowid (fun r1 r2 => r1.date ≤ r2.date)
      ⟨0, 0, 0, "", "", 0, none, none⟩ rows hs
    refine hp.imp_of_mem ?_
    intro p q hpm hqm hr
    obtain ⟨hp1, _, _⟩ := groupByKey_mem Row.rowid rows p hpm
    obtain ⟨hq1, _, _⟩ := groupByKey_mem Row.rowid rows q hqm
    rw [Message.load_timestamp p.2 hp1 ⟨0, 0, 0, "", "", 0, none, none⟩,
      Message.load_timestamp q.2 hq1 ⟨0, 0, 0, "", "", 0, none, none⟩]
    exact convert_from_timestamp_mono hr
  constructor
  · exact List.pairwise_map.mpr hmsg
  · intro p hp
    obtain ⟨_, hsub, _⟩ := groupByKey_mem Message.chat_id _ p hp
    exact List.pairwise_map.mpr (hmsg.sublist hsub)

/-- Exercises `day_file_timestamps_sorted` on two concrete sorted rows. -/
theorem day_file_timestamps_sorted_witness :
    ((Message.for_day rowsC).map Message.timestamp).Pairwise (· ≤ ·) ∧
    ∀ p ∈ groupByKey Message.chat_id (Message.for_day rowsC),
      (p.2.map Message.timestamp).Pairwise (· ≤ ·) :=
  day_file_timestamps_sorted rowsC (by norm_num [rowsC, List.pairwise_cons])

/-! ## C4: re-processing a day is idempotent -/

/-- The filesystem writes of one day are the planned `(path, content)` pairs
applied in order; the plan does not depend on the starting filesystem. -/
theorem writeChatsFS_eq (cfg : Config) (chats : Int → Chat) (day_str : String) :
    ∀ (gs : List (Int × List Message)) (fs : FS),
      writeChatsFS cfg chats day_str gs fs =
        (planWrites cfg chats day_str gs).map (fun ws => applyWrites ws fs) := by
  intro gs
  induction gs with
  | nil => intro fs; rfl
  | cons g rest ih =>
    intro fs
    obtain ⟨cid, ms⟩ := g
    simp only [writeChatsFS, planWrites]
    cases hc : chatFileContent cfg.fmt (maxSenderLength ms) ms with
    | none => rfl
    | some content =>
      cases hp : planWrites cfg chats day_str rest with
      | none =>
        have hih := ih (fsWrite fs ((chats cid).dir_name ++ "/" ++ day_str ++ ".txt") content)
        rw [hp] at hih
        exact hih
      | some ws =>
        have hih := ih (fsWrite fs ((chats cid).dir_name ++ "/" ++ day_str ++ ".txt") content)
        rw [hp] at hih
        exact hih

/-- What a sequence of truncating writes leaves at a path: the content of the
last write to that path, else what was there before. -/
theorem applyWrites_apply : ∀ (ws : List (String × String)) (fs : FS) (x : String),
    applyWrites ws fs x =
      match ws.reverse.find? (fun pc => pc.1 == x) with
      | some pc => some pc.2
      | none => fs x := by
  intro ws
  induction ws with
  | nil => intro fs x; rfl
  | cons w ws ih =>
    intro fs x
    obtain ⟨p, c⟩ := w
    show applyWrites ws (fsWrite fs p c) x = _
    rw [ih]
    have hrev : ((p, c) :: ws).reverse = ws.reverse ++ [(p, c)] := by simp
    rw [hrev, List.find?_append]
    cases hf : ws.reverse.find? (fun pc => pc.1 == x) with
    | some pc => rfl
    | none =>
      simp only [Option.none_or]
      by_cases hpx : p = x
      · subst hpx
        simp [fsWrite, List.find?]
      · have hxp : ¬ (x = p) := fun hh => hpx hh.symm
        have hb : (p == x) = false := beq_eq_false_iff_ne.mpr hpx
        simp [fsWrite, List.find?, hb, hxp]

/-- Re-applying the same truncating writes changes nothing. -/
theorem applyWrites_idem (ws : List (String × String)) (fs : FS) :
    applyWrites ws (applyWrites ws fs) = applyWrites ws fs := by
  funext x
  rw [applyWrites_apply ws (applyWrites ws fs) x]
  cases hf : ws.reverse.find? (fun pc => pc.1 == x) with
  | some pc =>
    rw [applyWrites_apply ws fs x, hf]
  | none =>
    rw [applyWrites_apply ws fs x, hf]

/-- C4: re-running a day against an unchanged message list overwrites each
conversation's day file with byte-identical content — processing a day twice
leaves the same filesystem as processing it once. -/
theorem reprocess_day_idempotent (cfg : Config) (chats : Int → Chat) (day : Int)
    (msgs : List Message) (fs fs' : FS)
    (h : processDayFS cfg chats day msgs fs = some fs') :
    processDayFS cfg chats day msgs fs' = some fs' := by
  unfold processDayFS at h ⊢
  rw [writeChatsFS_eq] at h ⊢
  cases hp : planWrites cfg chats (cfg.day_fmt day) (groupByKey Message.chat_id msgs) with
  | none => rw [hp] at h; simp at h
  | some ws =>
    rw [hp] at h
    simp only [Option.map_some'] at h ⊢
    have hw : applyWrites ws fs = fs' := by
      injection h
    rw [← hw, applyWrites_idem]

/-- Exercises `reprocess_day_idempotent`: archiving `[mW]` onto the empty
filesystem yields `fsW1`, and re-archiving onto `fsW1` yields `fsW1` again. -/
theorem reprocess_day_idempotent_witness :
    processDayFS cfgC chatsC 0 [mW] fsW1 = some fsW1 :=
  reprocess_day_idempotent cfgC chatsC 0 [mW] fsW0 fsW1 (by
    have hg : groupByKey Message.chat_id [mW] = [(0, [mW])] := by
      simp [groupByKey_cons, groupByKey_nil, mW]
    simp only [processDayFS, hg]
    rfl)

/-! ## C1: checkpoint ordering and monotonicity -/

/-- A body event is neither a checkpoint write nor a commit. -/
theorem Event.isBody_not_ckpt {e : Event} (h : e.isBody = true) :
    e.isCheckpointWrite = false ∧ e.isCommit = false := by
  cases e <;> simp_all [Event.isBody, Event.isCheckpointWrite, Event.isCommit]

/-- The attachment loop emits only body events. -/
theorem processAtts_body (cfg : Config) (copyOk : Attachment → Bool) (cp : String) :
    ∀ as : List Attachment, (processAtts cfg copyOk cp as).1.all Event.isBody = true := by
  intro as
  induction as with
  | nil => rfl
  | cons a rest ih =>
    simp only [processAtts]
    split
    · cases hg : cfg.use_git <;>
        simp [hg, List.all_append, ih, Event.isBody]
    · rfl

/-- The message loop emits only body events. -/
theorem processMsgs_body (cfg : Config) (copyOk : Attachment → Bool)
    (cp mp : String) (w : Nat) :
    ∀ ms : List Message, (processMsgs cfg copyOk cp mp w ms).1.all Event.isBody = true := by
  intro ms
  induction ms with
  | nil => rfl
  | cons m rest ih =>
    have har : (if cfg.attachments = true then processAtts cfg copyOk cp m.attachments
        else ([], true)).1.all Event.isBody = true := by
      split
      · exact processAtts_body cfg copyOk cp m.attachments
      · rfl
    cases hr : Message.render cfg.fmt m w with
    | none => simp [processMsgs, hr]
    | some line =>
      simp only [processMsgs, hr]
      split_ifs <;>
        simp_all [List.all_cons, List.all_append, Event.isBody,
          processAtts_body cfg copyOk cp m.attachments]

/-- One chat emits only body events. -/
theorem processChat_body (cfg : Config) (copyOk : Attachment → Bool)
    (chats : Int → Chat) (day_str : String) (cid : Int) (ms : List Message) :
    (processChat cfg copyOk chats day_str cid ms).1.all Event.isBody = true := by
  simp only [processChat]
  split
  · rw [List.all_append, processMsgs_body cfg copyOk _ _ _ ms, Bool.true_and]
    cases hg : cfg.use_git <;> simp [hg, Event.isBody]
  · exact processMsgs_body cfg copyOk _ _ _ ms

/-- The chat loop emits only body events: before the checkpoint write nothing
but file writes, copies and stagings happen. -/
theorem processChats_body (cfg : Config) (copyOk : Attachment → Bool)
    (chats : Int → Chat) (day_str : String) :
    ∀ gs : List (Int × List Message),
      (processChats cfg copyOk chats day_str gs).1.all Event.isBody = true := by
  intro gs
  induction gs with
  | nil => rfl
  | cons g rest ih =>
    obtain ⟨cid, ms⟩ := g
    simp only [processChats]
    split
    · rw [List.all_append, processChat_body cfg copyOk chats day_str cid ms, ih]
      rfl
    · exact processChat_body cfg copyOk chats day_str cid ms

/-- `checkpointWrites` distributes over concatenation. -/
theorem checkpointWrites_append (l1 l2 : List Event) :
    checkpointWrites (l1 ++ l2) = checkpointWrites l1 ++ checkpointWrites l2 :=
  List.filterMap_append l1 l2 _

/-- Body events contribute no checkpoint writes. -/
theorem checkpointWrites_of_body {evs : List Event} (h : evs.all Event.isBody = true) :
    checkpointWrites evs = [] := by
  rw [checkpointWrites, List.filterMap_eq_nil_iff]
  intro e he
  have := List.all_eq_true.mp h e he
  cases e <;> simp_all [Event.isBody]

/-- On success, the day's trace is the chat-loop trace followed by the
checkpoint write and, with git on, the staging of `lastrun` and the commit. -/
theorem processDay_success_trace {cfg : Config} {copyOk : Attachment → Bool}
    {chats : Int → Chat} {day : Int} {msgs : List Message}
    (h : (processDay cfg copyOk chats day msgs).2 = true) :
    (processDay cfg copyOk chats day msgs).1 =
      (processChats cfg copyOk chats (cfg.day_fmt day) (groupByKey Message.chat_id msgs)).1 ++
        Event.writeCheckpoint (day + 1) ::
          (if cfg.use_git then
            [Event.gitAdd "lastrun",
             Event.gitCommit ("Chat Archive for " ++ cfg.day_fmt day) true]
           else []) := by
  by_cases hc : (processChats cfg copyOk chats (cfg.day_fmt day)
      (groupByKey Message.chat_id msgs)).2 = true
  · simp [processDay, hc]
  · rw [show (processDay cfg copyOk chats day msgs).2 =
        (processChats cfg copyOk chats (cfg.day_fmt day)
          (groupByKey Message.chat_id msgs)).2 from by simp [processDay, hc]] at h
    exact absurd h hc

/-- On failure, the day's trace is just the chat-loop trace: no checkpoint
write and no commit happen. -/
theorem processDay_failure_trace {cfg : Config} {copyOk : Attachment → Bool}
    {chats : Int → Chat} {day : Int} {msgs : List Message}
    (h : (processDay cfg copyOk chats day msgs).2 = false) :
    (processDay cfg copyOk chats day msgs).1 =
      (processChats cfg copyOk chats (cfg.day_fmt day) (groupByKey Message.chat_id msgs)).1 := by
  by_cases hc : (processChats cfg copyOk chats (cfg.day_fmt day)
      (groupByKey Message.chat_id msgs)).2 = true
  · rw [show (processDay cfg copyOk chats day msgs).2 = true from by simp [processDay, hc]] at h
    exact absurd h (by decide)
  · simp [processDay, hc]

/-- The day's checkpoint writes: exactly `[day + 1]` on success, none on
failure. -/
theorem processDay_checkpointWrites (cfg : Config) (copyOk : Attachment → Bool)
    (chats : Int → Chat) (day : Int) (msgs : List Message) :
    checkpointWrites (processDay cfg copyOk chats day msgs).1 =
      if (processDay cfg copyOk chats day msgs).2 = true then [day + 1] else [] := by
  by_cases h : (processDay cfg copyOk chats day msgs).2 = true
  · rw [if_pos h, processDay_success_trace h, checkpointWrites_append,
      checkpointWrites_of_body (processChats_body cfg copyOk chats (cfg.day_fmt day) _)]
    cases hg : cfg.use_git <;> simp [hg, checkpointWrites]
  · rw [if_neg h, processDay_failure_trace (by simpa using h)]
    exact checkpointWrites_of_body (processChats_body cfg copyOk chats (cfg.day_fmt day) _)

/-- Over a run, the checkpoint writes are `start + 1, start + 2, ...` for the
first `k ≤ n` fully processed days: strictly increasing, all above the
starting checkpoint. -/
theorem runDays_checkpointWrites (cfg : Config) (copyOk : Attachment → Bool)
    (chats : Int → Chat) (store : Int → List Message) :
    ∀ (n : Nat) (start : Int),
      ∃ k ≤ n, checkpointWrites (runDays cfg copyOk chats store start n).1 =
        (List.range k).map (fun i : Nat => start + (i : Int) + 1) := by
  intro n
  induction n with
  | zero => exact fun start => ⟨0, le_rfl, rfl⟩
  | succ n ih =>
    intro start
    by_cases h : (processDay cfg copyOk chats start (store start)).2 = true
    · obtain ⟨k, hk, hw⟩ := ih (start + 1)
      refine ⟨k + 1, by omega, ?_⟩
      have htr : (runDays cfg copyOk chats store start (n + 1)).1 =
          (processDay cfg copyOk chats start (store start)).1 ++
            (runDays cfg copyOk chats store (start + 1) n).1 := by
        simp [runDays, h]
      rw [htr, checkpointWrites_append, processDay_checkpointWrites, if_pos h, hw,
        List.range_succ_eq_map]
      simp only [List.map_cons, List.map_map, List.cons_append, List.nil_append]
      congr 1
      · norm_num
      · apply List.map_congr_left
        intro i _
        simp only [Function.comp_apply]
        push_cast
        ring
    · refine ⟨0, by omega, ?_⟩
      have htr : runDays cfg copyOk chats store start (n + 1) =
          processDay cfg copyOk chats start (store start) := by
        simp [runDays, h]
      rw [htr, processDay_checkpointWrites, if_neg h, List.range_zero, List.map_nil]

/-- C1 (amended): the checkpoint value `d + 1` is written only after the day's
message-file writes and attachment copies have all been produced, and before
(not after) the day's snapshot commit is requested; on a failed day no
checkpoint is written; and across a run the checkpoint writes are strictly
increasing values above the starting checkpoint, so the checkpoint is
monotonically non-decreasing across runs. -/
theorem checkpoint_ordering_monotone (cfg : Config) (copyOk : Attachment → Bool)
    (chats : Int → Chat) (day : Int) (msgs : List Message)
    (store : Int → List Message) (start : Int) (n : Nat) :
    ((processDay cfg copyOk chats day msgs).2 = true →
      ∃ pre, (processDay cfg copyOk chats day msgs).1 =
          pre ++ Event.writeCheckpoint (day + 1) ::
            (if cfg.use_git then
              [Event.gitAdd "lastrun",
               Event.gitCommit ("Chat Archive for " ++ cfg.day_fmt day) true]
             else []) ∧
        ∀ e ∈ pre, e.isCheckpointWrite = false ∧ e.isCommit = false) ∧
    ((processDay cfg copyOk chats day msgs).2 = false →
      checkpointWrites (processDay cfg copyOk chats day msgs).1 = []) ∧
    (∃ k ≤ n, checkpointWrites (runDays cfg copyOk chats store start n).1 =
      (List.range k).map (fun i : Nat => start + (i : Int) + 1)) := by
  refine ⟨?_, ?_, runDays_checkpointWrites cfg copyOk chats store n start⟩
  · intro h
    refine ⟨(processChats cfg copyOk chats (cfg.day_fmt day)
        (groupByKey Message.chat_id msgs)).1, processDay_success_trace h, ?_⟩
    intro e he
    exact Event.isBody_not_ckpt
      (List.all_eq_true.mp (processChats_body cfg copyOk chats (cfg.day_fmt day) _) e he)
  · intro h
    rw [processDay_checkpointWrites, if_neg (by simp [h])]

/-- Exercises `checkpoint_ordering_monotone` on a concrete empty day and a
concrete two-day run. -/
theorem checkpoint_ordering_monotone_witness :
    (∃ pre, (processDay cfgC okAll chatsC 0 []).1 =
        pre ++ Event.writeCheckpoint (0 + 1) ::
          (if cfgC.use_git then
            [Event.gitAdd "lastrun",
             Event.gitCommit ("Chat Archive for " ++ cfgC.day_fmt 0) true]
           else []) ∧
      ∀ e ∈ pre, e.isCheckpointWrite = false ∧ e.isCommit = false) ∧
    (∃ k ≤ 2, checkpointWrites (runDays cfgC okAll chatsC storeE 5 2).1 =
      (List.range k).map (fun i : Nat => 5 + (i : Int) + 1)) :=
  ⟨(checkpoint_ordering_monotone cfgC okAll chatsC 0 [] storeE 5 2).1 (by
      simp [processDay, processChats, groupByKey_nil]),
   (checkpoint_ordering_monotone cfgC okAll chatsC 0 [] storeE 5 2).2.2⟩

/-- C1 (counterexample to the claim as stated): on an empty day the trace is
`[writeCheckpoint (d+1), gitAdd "lastrun", gitCommit ...]` — the checkpoint is
written strictly before the snapshot commit is requested, so the checkpoint is
not advanced "only after the snapshot has been produced". -/
theorem checkpoint_written_before_commit :
    ¬ checkpointOnlyAfterCommit (processDay cfgC okAll chatsC 0 []).1 := by
  intro hcl
  have htr : (processDay cfgC okAll chatsC 0 []).1 =
      [Event.writeCheckpoint 1, Event.gitAdd "lastrun",
       Event.gitCommit ("Chat Archive for D") true] := by
    simp [processDay, processChats, groupByKey_nil, cfgC]
  rw [checkpointOnlyAfterCommit, htr] at hcl
  have h2 := hcl 0 (by decide) 2 (by decide) rfl rfl
  omega

/-! ## C10: rendered lines do not depend on the attachments flag -/

/-- `lineWrites` distributes over concatenation. -/
theorem lineWrites_append (l1 l2 : List Event) :
    lineWrites (l1 ++ l2) = lineWrites l1 ++ lineWrites l2 :=
  List.filterMap_append l1 l2 _

/-- The attachment loop writes no day-file lines. -/
theorem processAtts_lineWrites (cfg : Config) (copyOk : Attachment → Bool) (cp : String) :
    ∀ as : List Attachment, lineWrites (processAtts cfg copyOk cp as).1 = [] := by
  intro as
  induction as with
  | nil => rfl
  | cons a rest ih =>
    simp only [processAtts]
    split
    · cases hg : cfg.use_git <;> simp [hg, lineWrites, List.filterMap_append] <;>
        simpa [lineWrites] using ih
    · rfl

/-- When every copy succeeds, the attachment loop succeeds. -/
theorem processAtts_allOk_snd (cfg : Config) (cp : String) :
    ∀ as : List Attachment, (processAtts cfg (fun _ => true) cp as).2 = true := by
  intro as
  induction as with
  | nil => rfl
  | cons a rest ih => simpa [processAtts] using ih

/-- `lineWrites` on a leading line-write event. -/
theorem lineWrites_cons_writeLine (p s : String) (l : List Event) :
    lineWrites (Event.writeLine p s :: l) = (p, s) :: lineWrites l := rfl

/-- The message loop's line writes and success flag are the same whether the
attachments flag is on or off (with all copies succeeding): the flag drives
only copying and staging. -/
theorem processMsgs_lines_flag (a b g : Bool) (fmt : ℚ → String) (dfmt : Int → String)
    (cp mp : String) (w : Nat) :
    ∀ ms : List Message,
      lineWrites (processMsgs ⟨a, g, fmt, dfmt⟩ (fun _ => true) cp mp w ms).1 =
        lineWrites (processMsgs ⟨b, g, fmt, dfmt⟩ (fun _ => true) cp mp w ms).1 ∧
      (processMsgs ⟨a, g, fmt, dfmt⟩ (fun _ => true) cp mp w ms).2 =
        (processMsgs ⟨b, g, fmt, dfmt⟩ (fun _ => true) cp mp w ms).2 := by
  intro ms
  induction ms with
  | nil => exact ⟨rfl, rfl⟩
  | cons m rest ih =>
    cases hr : Message.render fmt m w with
    | none => exact ⟨by simp [processMsgs, hr], by simp [processMsgs, hr]⟩
    | some line =>
      have key : ∀ c : Bool,
          lineWrites (processMsgs ⟨c, g, fmt, dfmt⟩ (fun _ => true) cp mp w (m :: rest)).1 =
            (mp, line ++ "\n") ::
              lineWrites (processMsgs ⟨c, g, fmt, dfmt⟩ (fun _ => true) cp mp w rest).1 ∧
          (processMsgs ⟨c, g, fmt, dfmt⟩ (fun _ => true) cp mp w (m :: rest)).2 =
            (processMsgs ⟨c, g, fmt, dfmt⟩ (fun _ => true) cp mp w rest).2 := by
        intro c
        have har : (if c = true then
            processAtts ⟨c, g, fmt, dfmt⟩ (fun _ => true) cp m.attachments
            else ([], true)).2 = true := by
          split
          · exact processAtts_allOk_snd ⟨c, g, fmt, dfmt⟩ cp m.attachments
          · rfl
        have hln : lineWrites (if c = true then
            processAtts ⟨c, g, fmt, dfmt⟩ (fun _ => true) cp m.attachments
            else ([], true)).1 = [] := by
          split
          · exact processAtts_lineWrites ⟨c, g, fmt, dfmt⟩ (fun _ => true) cp m.attachments
          · rfl
        constructor
        · simp only [processMsgs, hr]
          rw [if_pos har]
          dsimp only
          rw [lineWrites_append, lineWrites_cons_writeLine, hln]
          rfl
        · simp only [processMsgs, hr]
          rw [if_pos har]
      obtain ⟨kA1, kA2⟩ := key a
      obtain ⟨kB1, kB2⟩ := key b
      exact ⟨by rw [kA1, kB1, ih.1], by rw [kA2, kB2, ih.2]⟩

/-- One chat's line writes and success flag do not depend on the attachments
flag. -/
theorem processChat_lines_flag (a b g : Bool) (fmt : ℚ → String) (dfmt : Int → String)
    (chats : Int → Chat) (day_str : String) (cid : Int) (ms : List Message) :
    lineWrites (processChat ⟨a, g, fmt, dfmt⟩ (fun _ => true) chats day_str cid ms).1 =
      lineWrites (processChat ⟨b, g, fmt, dfmt⟩ (fun _ => true) chats day_str cid ms).1 ∧
    (processChat ⟨a, g, fmt, dfmt⟩ (fun _ => true) chats day_str cid ms).2 =
      (processChat ⟨b, g, fmt, dfmt⟩ (fun _ => true) chats day_str cid ms).2 := by
  have hm := processMsgs_lines_flag a b g fmt dfmt (chats cid).dir_name
    ((chats cid).dir_name ++ "/" ++ day_str ++ ".txt") (maxSenderLength ms) ms
  simp only [processChat]
  by_cases hA : (processMsgs ⟨a, g, fmt, dfmt⟩ (fun _ => true) (chats cid).dir_name
      ((chats cid).dir_name ++ "/" ++ day_str ++ ".txt") (maxSenderLength ms) ms).2 = true
  · have hB : (processMsgs ⟨b, g, fmt, dfmt⟩ (fun _ => true) (chats cid).dir_name
        ((chats cid).dir_name ++ "/" ++ day_str ++ ".txt") (maxSenderLength ms) ms).2 = true := by
      rw [← hm.2]; exact hA
    rw [if_pos hA, if_pos hB]
    constructor
    · rw [lineWrites_append, lineWrites_append, hm.1]
    · rfl
  · have hB : ¬ (processMsgs ⟨b, g, fmt, dfmt⟩ (fun _ => true) (chats cid).dir_name
        ((chats cid).dir_name ++ "/" ++ day_str ++ ".txt") (maxSenderLength ms) ms).2 = true := by
      rw [← hm.2]; exact hA
    rw [if_neg hA, if_neg hB]
    exact hm

/-- The chat loop's line writes and success flag do not depend on the
attachments flag. -/
theorem processChats_lines_flag (a b g : Bool) (fmt : ℚ → String) (dfmt : Int → String)
    (chats : Int → Chat) (day_str : String) :
    ∀ gs : List (Int × List Message),
      lineWrites (processChats ⟨a, g, fmt, dfmt⟩ (fun _ => true) chats day_str gs).1 =
        lineWrites (processChats ⟨b, g, fmt, dfmt⟩ (fun _ => true) chats day_str gs).1 ∧
      (processChats ⟨a, g, fmt, dfmt⟩ (fun _ => true) chats day_str gs).2 =
        (processChats ⟨b, g, fmt, dfmt⟩ (fun _ => true) chats day_str gs).2 := by
  intro gs
  induction gs with
  | nil => exact ⟨rfl, rfl⟩
  | cons p rest ih =>
    obtain ⟨cid, ms⟩ := p
    have hc := processChat_lines_flag a b g fmt dfmt chats day_str cid ms
    simp only [processChats]
    by_cases hA : (processChat ⟨a, g, fmt, dfmt⟩ (fun _ => true) chats day_str cid ms).2 = true
    · have hB : (processChat ⟨b, g, fmt, dfmt⟩ (fun _ => true) chats day_str cid ms).2 = true := by
        rw [← hc.2]; exact hA
      rw [if_pos hA, if_pos hB]
      exact ⟨by rw [lineWrites_append, lineWrites_append, hc.1, ih.1], ih.2⟩
    · have hB : ¬ (processChat ⟨b, g, fmt, dfmt⟩ (fun _ => true) chats day_str cid ms).2 = true := by
        rw [← hc.2]; exact hA
      rw [if_neg hA, if_neg hB]
      exact hc

/-- C10: the rendered line writes of a day are identical whether attachment
export is enabled or not — the attachments flag affects only the copy and
staging events, never the rendered content (placeholder stripping and
attachment tokens included, since `render` never consults the flag). -/
theorem lines_independent_of_attachments_flag (a b g : Bool) (fmt : ℚ → String)
    (dfmt : Int → String) (chats : Int → Chat) (day : Int) (msgs : List Message) :
    lineWrites (processDay ⟨a, g, fmt, dfmt⟩ (fun _ => true) chats day msgs).1 =
      lineWrites (processDay ⟨b, g, fmt, dfmt⟩ (fun _ => true) chats day msgs).1 := by
  have hc := processChats_lines_flag a b g fmt dfmt chats (dfmt day)
    (groupByKey Message.chat_id msgs)
  simp only [processDay]
  by_cases hA : (processChats ⟨a, g, fmt, dfmt⟩ (fun _ => true) chats (dfmt day)
      (groupByKey Message.chat_id msgs)).2 = true
  · have hB : (processChats ⟨b, g, fmt, dfmt⟩ (fun _ => true) chats (dfmt day)
        (groupByKey Message.chat_id msgs)).2 = true := by
      rw [← hc.2]; exact hA
    rw [if_pos hA, if_pos hB]
    rw [lineWrites_append, lineWrites_append, hc.1]
  · have hB : ¬ (processChats ⟨b, g, fmt, dfmt⟩ (fun _ => true) chats (dfmt day)
        (groupByKey Message.chat_id msgs)).2 = true := by
      rw [← hc.2]; exact hA
    rw [if_neg hA, if_neg hB]
    exact hc.1

/-! ## C5: a failing attachment copy halts the day -/

/-- `all` over a `map`. -/
theorem all_map_poly {A B : Type} (f : A → B) (p : B → Bool) (l : List A) :
    (l.map f).all p = l.all (fun a => p (f a)) := by
  induction l with
  | nil => rfl
  | cons a t ih => simp [List.all_cons, ih]

/-- `takeWhile` keeps everything when the predicate holds everywhere. -/
theorem takeWhile_of_all {A : Type} {p : A → Bool} :
    ∀ {l : List A}, l.all p = true → l.takeWhile p = l := by
  intro l
  induction l with
  | nil => intro _; rfl
  | cons a t ih =>
    intro h
    rw [List.all_cons, Bool.and_eq_true] at h
    rw [List.takeWhile_cons, if_pos h.1, ih h.2]

/-- `takeWhile` over an append whose first part is all-true. -/
theorem takeWhile_append_of_all {A : Type} {p : A → Bool} {l1 l2 : List A}
    (h : l1.all p = true) :
    (l1 ++ l2).takeWhile p = l1 ++ l2.takeWhile p := by
  induction l1 with
  | nil => rfl
  | cons a t ih =>
    rw [List.all_cons, Bool.and_eq_true] at h
    rw [List.cons_append, List.takeWhile_cons, if_pos h.1, ih h.2, List.cons_append]

/-- `takeWhile` over an append whose first part fails somewhere. -/
theorem takeWhile_append_of_not_all {A : Type} {p : A → Bool} {l2 : List A} :
    ∀ {l1 : List A}, l1.all p = false → (l1 ++ l2).takeWhile p = l1.takeWhile p := by
  intro l1
  induction l1 with
  | nil => intro h; exact absurd h (by simp)
  | cons a t ih =>
    intro h
    rw [List.all_cons, Bool.and_eq_false_iff] at h
    rcases h with h | h
    · rw [List.cons_append, List.takeWhile_cons, if_neg (by simp [h]),
        List.takeWhile_cons, if_neg (by simp [h])]
    · by_cases ha : p a = true
      · rw [List.cons_append, List.takeWhile_cons, if_pos ha, List.takeWhile_cons,
          if_pos ha, ih h]
      · rw [List.cons_append, List.takeWhile_cons, if_neg ha, List.takeWhile_cons,
          if_neg ha]

/-- `copiesOf` distributes over concatenation. -/
theorem copiesOf_append (l1 l2 : List Event) :
    copiesOf (l1 ++ l2) = copiesOf l1 ++ copiesOf l2 :=
  List.filterMap_append l1 l2 _

/-- `copiesOf` on a leading copy event. -/
theorem copiesOf_copy (src dst : String) (l : List Event) :
    copiesOf (Event.copyAttachment src dst :: l) = (src, dst) :: copiesOf l := rfl

/-- `copiesOf` on a leading line write. -/
theorem copiesOf_writeLine (p d : String) (l : List Event) :
    copiesOf (Event.writeLine p d :: l) = copiesOf l := rfl

/-- `copiesOf` on an optional staging singleton. -/
theorem copiesOf_gitAdd_ite (c : Prop) [Decidable c] (p : String) :
    copiesOf (if c then [Event.gitAdd p] else []) = [] := by
  split <;> rfl

/-- `render` succeeds exactly when the text column is non-null. -/
theorem render_isSome (fmt : ℚ → String) (m : Message) (w : Nat) :
    (Message.render fmt m w).isSome = m.text.isSome := by
  cases h : m.text <;> simp [Message.render, h]

/-- The attachment loop copies exactly the prefix of attachments up to the
first failing copy, and succeeds iff every copy succeeds. -/
theorem processAtts_copies (cfg : Config) (copyOk : Attachment → Bool) (cp : String) :
    ∀ as : List Attachment,
      copiesOf (processAtts cfg copyOk cp as).1 =
        (as.takeWhile copyOk).map (fun a => (a.src_name, dstPath cp a)) ∧
      (processAtts cfg copyOk cp as).2 = as.all copyOk := by
  intro as
  induction as with
  | nil => exact ⟨rfl, rfl⟩
  | cons a rest ih =>
    by_cases h : copyOk a = true
    · constructor
      · simp only [processAtts]
        rw [if_pos h]
        dsimp only
        rw [List.cons_append, copiesOf_copy, copiesOf_append, copiesOf_gitAdd_ite,
          List.nil_append, ih.1, List.takeWhile_cons, if_pos h, List.map_cons]
      · simp only [processAtts]
        rw [if_pos h]
        dsimp only
        rw [ih.2, List.all_cons, h, Bool.true_and]
    · constructor
      · simp only [processAtts]
        rw [if_neg h]
        dsimp only
        rw [List.takeWhile_cons, if_neg h]
        rfl
      · simp only [processAtts]
        rw [if_neg h]
        dsimp only
        have hf : copyOk a = false := by
          cases hv : copyOk a
          · rfl
          · exact absurd hv h
        rw [List.all_cons, hf, Bool.false_and]

/-- The message loop, with attachment export on and all texts non-null, copies
exactly the prefix of the day's attachments (in message order) up to the first
failing copy, and succeeds iff every copy succeeds. -/
theorem processMsgs_copies (cfg : Config) (copyOk : Attachment → Bool)
    (cp mp : String) (w : Nat) (hatt : cfg.attachments = true) :
    ∀ ms : List Message, (∀ m ∈ ms, m.text.isSome = true) →
      copiesOf (processMsgs cfg copyOk cp mp w ms).1 =
        ((ms.flatMap Message.attachments).takeWhile copyOk).map
          (fun a => (a.src_name, dstPath cp a)) ∧
      (processMsgs cfg copyOk cp mp w ms).2 = (ms.flatMap Message.attachments).all copyOk := by
  intro ms
  induction ms with
  | nil => exact fun _ => ⟨rfl, rfl⟩
  | cons m rest ih =>
    intro htext
    have hm : m.text.isSome = true := htext m (by simp)
    obtain ⟨ihc, ihs⟩ := ih (fun x hx => htext x (by simp [hx]))
    cases hr : Message.render cfg.fmt m w with
    | none =>
      exfalso
      have := render_isSome cfg.fmt m w
      rw [hr] at this
      rw [← this] at hm
      exact absurd hm (by simp)
    | some line =>
      have hA := processAtts_copies cfg copyOk cp m.attachments
      by_cases hall : m.attachments.all copyOk = true
      · have har2 : (if cfg.attachments = true then
            processAtts cfg copyOk cp m.attachments else ([], true)).2 = true := by
          rw [if_pos hatt, hA.2]
          exact hall
        constructor
        · simp only [processMsgs, hr]
          rw [if_pos har2]
          dsimp only
          rw [copiesOf_append, copiesOf_writeLine, if_pos hatt, hA.1,
            takeWhile_of_all hall, ihc, List.flatMap_cons,
            takeWhile_append_of_all hall, List.map_append]
        · simp only [processMsgs, hr]
          rw [if_pos har2]
          dsimp only
          rw [ihs, List.flatMap_cons, List.all_append, hall, Bool.true_and]
      · have har2 : ¬ (if cfg.attachments = true then
            processAtts cfg copyOk cp m.attachments else ([], true)).2 = true := by
          rw [if_pos hatt, hA.2]
          simp [hall]
        constructor
        · simp only [processMsgs, hr]
          rw [if_neg har2]
          dsimp only
          rw [copiesOf_writeLine, if_pos hatt, hA.1, List.flatMap_cons,
            takeWhile_append_of_not_all (by simpa using hall)]
        · simp only [processMsgs, hr]
          rw [if_neg har2]
          dsimp only
          rw [List.flatMap_cons, List.all_append, (by simpa using hall : m.attachments.all copyOk = false), Bool.false_and]

/-- One chat's copies and success flag are those of its message loop: the
trailing `git add` of the day file adds no copies. -/
theorem processChat_copies (cfg : Config) (copyOk : Attachment → Bool)
    (chats : Int → Chat) (day_str : String) (cid : Int) (ms : List Message) :
    copiesOf (processChat cfg copyOk chats day_str cid ms).1 =
      copiesOf (processMsgs cfg copyOk (chats cid).dir_name
        ((chats cid).dir_name ++ "/" ++ day_str ++ ".txt") (maxSenderLength ms) ms).1 ∧
    (processChat cfg copyOk chats day_str cid ms).2 =
      (processMsgs cfg copyOk (chats cid).dir_name
        ((chats cid).dir_name ++ "/" ++ day_str ++ ".txt") (maxSenderLength ms) ms).2 := by
  simp only [processChat]
  split
  · next hs =>
    constructor
    · dsimp only
      rw [copiesOf_append, copiesOf_gitAdd_ite, List.append_nil]
    · dsimp only
      exact hs.symm
  · exact ⟨rfl, rfl⟩

/-- The chat loop, with attachment export on and all texts non-null, copies
exactly the planned `(attachment, chat directory)` prefix up to the first
failing copy, and succeeds iff every planned copy succeeds. -/
theorem processChats_copies (cfg : Config) (copyOk : Attachment → Bool)
    (chats : Int → Chat) (day_str : String) (hatt : cfg.attachments = true) :
    ∀ gs : List (Int × List Message), (∀ p ∈ gs, ∀ m ∈ p.2, m.text.isSome = true) →
      copiesOf (processChats cfg copyOk chats day_str gs).1 =
        ((gs.flatMap (fun p => (p.2.flatMap Message.attachments).map
            (fun a => (a, (chats p.1).dir_name)))).takeWhile
          (fun pa => copyOk pa.1)).map
          (fun pa => (pa.1.src_name, dstPath pa.2 pa.1)) ∧
      (processChats cfg copyOk chats day_str gs).2 =
        (gs.flatMap (fun p => (p.2.flatMap Message.attachments).map
            (fun a => (a, (chats p.1).dir_name)))).all (fun pa => copyOk pa.1) := by
  intro gs
  induction gs with
  | nil => exact fun _ => ⟨rfl, rfl⟩
  | cons p rest ih =>
    intro htext
    obtain ⟨cid, ms⟩ := p
    have hms : ∀ m ∈ ms, m.text.isSome = true := htext (cid, ms) (by simp)
    obtain ⟨ihc, ihs⟩ := ih (fun q hq => htext q (by simp [hq]))
    obtain ⟨hmc, hms2⟩ := processMsgs_copies cfg copyOk (chats cid).dir_name
      ((chats cid).dir_name ++ "/" ++ day_str ++ ".txt") (maxSenderLength ms) hatt ms hms
    obtain ⟨hcc, hcs⟩ := processChat_copies cfg copyOk chats day_str cid ms
    have hplanTW : (((ms.flatMap Message.attachments).map
        (fun a => (a, (chats cid).dir_name))).takeWhile (fun pa => copyOk pa.1)) =
        ((ms.flatMap Message.attachments).takeWhile copyOk).map
          (fun a => (a, (chats cid).dir_name)) := by
      rw [List.takeWhile_map]
      rfl
    have hplanAll : ((ms.flatMap Message.attachments).map
        (fun a => (a, (chats cid).dir_name))).all (fun pa => copyOk pa.1) =
        (ms.flatMap Message.attachments).all copyOk := by
      rw [all_map_poly]
    by_cases hc2 : (processChat cfg copyOk chats day_str cid ms).2 = true
    · have hallm : (ms.flatMap Message.attachments).all copyOk = true := by
        rw [← hms2, ← hcs]
        exact hc2
      constructor
      · simp only [processChats]
        rw [if_pos hc2]
        dsimp only
        rw [copiesOf_append, hcc, hmc, takeWhile_of_all hallm, ihc, List.flatMap_cons,
          takeWhile_append_of_all (by rw [hplanAll]; exact hallm),
          List.map_append, List.map_map]
        rfl
      · simp only [processChats]
        rw [if_pos hc2]
        dsimp only
        rw [ihs, List.flatMap_cons, List.all_append, hplanAll, hallm, Bool.true_and]
    · have hallm : (ms.flatMap Message.attachments).all copyOk = false := by
        cases hv : (ms.flatMap Message.attachments).all copyOk
        · rfl
        · exact absurd (by rw [hcs, hms2]; exact hv) hc2
      constructor
      · simp only [processChats]
        rw [if_neg hc2]
        rw [hcc, hmc, List.flatMap_cons,
          takeWhile_append_of_not_all (by rw [hplanAll]; exact hallm),
          hplanTW, List.map_map]
        rfl
      · simp only [processChats]
        rw [if_neg hc2]
        rw [hcs, hms2, List.flatMap_cons, List.all_append, hplanAll, hallm,
          Bool.false_and]

/-- C5: with attachment export on, if copying some attachment of the day
fails, the day fails ("halts fatally at that point"), writes no checkpoint —
so the checkpoint is not advanced past the failing day — and the copies
actually performed are exactly those planned before the failing one, which
remain; the run processes no further days. -/
theorem attachment_failure_halts (cfg : Config) (copyOk : Attachment → Bool)
    (chats : Int → Chat) (day : Int) (msgs : List Message)
    (hatt : cfg.attachments = true)
    (htext : ∀ m ∈ msgs, m.text.isSome = true)
    (hfail : (attPlan chats msgs).all (fun pa => copyOk pa.1) = false) :
    (processDay cfg copyOk chats day msgs).2 = false ∧
    checkpointWrites (processDay cfg copyOk chats day msgs).1 = [] ∧
    copiesOf (processDay cfg copyOk chats day msgs).1 =
      ((attPlan chats msgs).takeWhile (fun pa => copyOk pa.1)).map
        (fun pa => (pa.1.src_name, dstPath pa.2 pa.1)) ∧
    ∀ (store : Int → List Message) (n : Nat), store day = msgs →
      runDays cfg copyOk chats store day (n + 1) =
        processDay cfg copyOk chats day msgs := by
  have htext' : ∀ p ∈ groupByKey Message.chat_id msgs, ∀ m ∈ p.2, m.text.isSome = true := by
    intro p hp m hm
    exact htext m ((groupByKey_mem Message.chat_id msgs p hp).2.1.subset hm)
  obtain ⟨hcc, hcs⟩ := processChats_copies cfg copyOk chats (cfg.day_fmt day) hatt
    (groupByKey Message.chat_id msgs) htext'
  have hchats2 : (processChats cfg copyOk chats (cfg.day_fmt day)
      (groupByKey Message.chat_id msgs)).2 = false := by
    rw [hcs]
    exact hfail
  have hday2 : (processDay cfg copyOk chats day msgs).2 = false := by
    rw [show (processDay cfg copyOk chats day msgs).2 =
        (processChats cfg copyOk chats (cfg.day_fmt day)
          (groupByKey Message.chat_id msgs)).2 from by
      simp [processDay, hchats2]]
    exact hchats2
  refine ⟨hday2, ?_, ?_, ?_⟩
  · rw [processDay_checkpointWrites, if_neg (by simp [hday2])]
  · rw [processDay_failure_trace hday2, hcc]
    rfl
  · intro store n hst
    rw [show runDays cfg copyOk chats store day (n + 1) =
        (let r := processDay cfg copyOk chats day (store day);
         if r.2 = true then
           let rr := runDays cfg copyOk chats store (day + 1) n
           (r.1 ++ rr.1, rr.2)
         else r) from rfl, hst]
    rw [if_neg (by simp [hday2])]

/-- Exercises `attachment_failure_halts`: one message with one attachment,
every copy failing. -/
theorem attachment_failure_halts_witness :
    (processDay cfgC okNone chatsC 0 [mA]).2 = false ∧
    checkpointWrites (processDay cfgC okNone chatsC 0 [mA]).1 = [] ∧
    copiesOf (processDay cfgC okNone chatsC 0 [mA]).1 =
      ((attPlan chatsC [mA]).takeWhile (fun pa => okNone pa.1)).map
        (fun pa => (pa.1.src_name, dstPath pa.2 pa.1)) :=
  have h := attachment_failure_halts cfgC okNone chatsC 0 [mA] rfl
    (by
      intro m hm
      rw [List.mem_singleton.mp hm]
      rfl)
    (by
      have hg : groupByKey Message.chat_id [mA] = [(0, [mA])] := by
        simp [groupByKey_cons, groupByKey_nil, mA]
      unfold attPlan
      rw [hg]
      rfl)
  ⟨h.1, h.2.1, h.2.2.1⟩

end MacosChatBackup